import Mathlib

/-!
Verification of the markdown analysis / line-classification / reformatting core of
`markdown_editor.py` (classes `MarkdownAnalyzer`, `MarkdownSyntaxHighlighter`, and the
`format_markdown` method).

Strings are modelled as `List Char` (a Python `str` is a sequence of code points).
Python regular-expression operations are embedded as explicit character scanners that
reproduce the leftmost / greedy-with-backtracking / non-overlapping semantics of the
specific patterns used by the source; each definition's doc comment names the source
construct it embeds.  Character classes (`\s`, `\w`, `str.strip`) are modelled by their
ASCII core.  Python float arithmetic (`sum/len` averages, `round`) is modelled exactly:
for the quantities involved the float comparisons agree with exact rational comparison,
and `round` is banker's rounding.
-/

namespace MDSpec

/-- The backtick character (ASCII 96). -/
def btick : Char := Char.ofNat 96

/-- Python whitespace for `str.strip()` / regex `\s` (ASCII core):
space, tab, newline, carriage return, vertical tab, form feed. -/
def isPySpace (c : Char) : Bool :=
  c = ' ' || c = '\t' || c = '\n' || c = '\r' || c = Char.ofNat 11 || c = Char.ofNat 12

/-- Regex `\w` word character (ASCII core): letter, digit, or underscore. -/
def isWordChar (c : Char) : Bool := c.isAlpha || c.isDigit || c = '_'

/-- Python `text.split('\n')`.  Always returns at least one piece;
`''.split('\n') == ['']`. -/
def splitNl : List Char → List (List Char)
  | [] => [[]]
  | c :: cs =>
    if c = '\n' then [] :: splitNl cs
    else
      match splitNl cs with
      | [] => [[c]]
      | h :: t => (c :: h) :: t

/-- Python `str.strip()`: remove whitespace from both ends. -/
def pyStrip (t : List Char) : List Char :=
  ((t.dropWhile isPySpace).reverse.dropWhile isPySpace).reverse

/-- `startsWithL t p` : the list `t` begins with the pattern `p`
(Python `str.startswith`). -/
def startsWithL : List Char → List Char → Bool
  | _, [] => true
  | [], _ :: _ => false
  | c :: cs, p :: ps => c = p && startsWithL cs ps

/-- The literal `"```"`. -/
def bq3 : List Char := [btick, btick, btick]

/-- The literal `"~~~"`. -/
def td3 : List Char := ['~', '~', '~']

/-- Index of the first occurrence of the literal pattern `pat` in the text,
`none` if it does not occur. -/
def findSubIdx (pat : List Char) : List Char → Option Nat
  | [] => if pat = [] then some 0 else none
  | c :: cs =>
    if startsWithL (c :: cs) pat then some 0
    else (findSubIdx pat cs).map (· + 1)

/-- Embeds `re.sub(r'```.*?```', '', text, flags=re.DOTALL)` (fuel-indexed):
repeatedly delete from the leftmost `"```"` through the next `"```"` after it
(non-greedy pairing).  If the leftmost `"```"` has no closer at distance ≥ 3 then no
match exists anywhere in the text and the text is returned unchanged — in particular a
fence left unterminated at the end of the document is not removed. -/
def stripFencesF : Nat → List Char → List Char
  | 0, t => t
  | fuel + 1, t =>
    match findSubIdx bq3 t with
    | none => t
    | some i =>
      match findSubIdx bq3 (t.drop (i + 3)) with
      | none => t
      | some j => t.take i ++ stripFencesF fuel ((t.drop (i + 3)).drop (j + 3))

/-- `re.sub(r'```.*?```', '', text, flags=re.DOTALL)` with adequate fuel. -/
def stripFences (t : List Char) : List Char := stripFencesF t.length t

/-- Embeds `re.sub(r'`[^`]+`', '', text)` (fuel-indexed): leftmost scan; a backtick
followed by a nonempty run of non-backtick characters (newlines included: `[^`]` matches
`'\n'`) and a closing backtick is deleted; any other character is kept. -/
def stripInlineF : Nat → List Char → List Char
  | 0, t => t
  | _ + 1, [] => []
  | fuel + 1, c :: cs =>
    if c = btick then
      if 0 < (cs.takeWhile (fun d => !(d == btick))).length ∧
          startsWithL (cs.drop (cs.takeWhile (fun d => !(d == btick))).length) [btick] = true then
        stripInlineF fuel (cs.drop ((cs.takeWhile (fun d => !(d == btick))).length + 1))
      else c :: stripInlineF fuel cs
    else c :: stripInlineF fuel cs

/-- `re.sub(r'`[^`]+`', '', text)` with adequate fuel. -/
def stripInline (t : List Char) : List Char := stripInlineF t.length t

/-- Number of maximal runs of characters satisfying `p`; the accumulator records
whether the previous character satisfied `p`. -/
def countRunsBy (p : Char → Bool) : Bool → List Char → Nat
  | _, [] => 0
  | prev, c :: cs => (if p c && !prev then 1 else 0) + countRunsBy p (p c) cs

/-- `len(re.findall(r'\b\w+\b', t))`: the number of maximal runs of word characters. -/
def countWordRuns (t : List Char) : Nat := countRunsBy isWordChar false t

/-- Embeds `MarkdownAnalyzer._count_words`: strip fenced code (`'```.*?```'`, DOTALL),
then inline code (`` '`[^`]+`' ``), then count `\b\w+\b` matches. -/
def count_words (t : List Char) : Nat := countWordRuns (stripInline (stripFences t))

/-- Python `round(w / 200)`: the float quotient is exact enough that the comparison with
the halfway point agrees with exact rational arithmetic, and Python rounds halves to
even (banker's rounding). -/
def pyRoundDiv200 (w : Nat) : Nat :=
  if w % 200 < 100 then w / 200
  else if 100 < w % 200 then w / 200 + 1
  else if w / 200 % 2 = 0 then w / 200 else w / 200 + 1

/-- Embeds `MarkdownAnalyzer._estimate_reading_time`: `max(1, round(words / 200))`. -/
def estimate_reading_time (t : List Char) : Nat := max 1 (pyRoundDiv200 (count_words t))

/-- `wsAt t k`: position `k` exists in `t` and holds a whitespace character. -/
def wsAt (t : List Char) (k : Nat) : Bool :=
  match t.drop k with
  | c :: _ => isPySpace c
  | [] => false

/-- `nonWsAt t k`: position `k` exists in `t` and holds a non-whitespace character
(regex `\S`). -/
def nonWsAt (t : List Char) (k : Nat) : Bool :=
  match t.drop k with
  | c :: _ => !(isPySpace c)
  | [] => false

/-- The first `k` characters of `t` are all `'#'` (and `t` has at least `k`
characters). -/
def hashRun (t : List Char) (k : Nat) : Bool := t.take k = List.replicate k '#'

/-- A match of `re.match(r'^(#{1,6})\s+(.+)$', t)` in which the hash group took exactly
`k` characters: `k` hashes, then a whitespace character, then at least one further
character (`\s+` backtracks to length 1 if needed, and `.` matches anything here since
lines contain no `'\n'`). -/
def headingSrcAt (t : List Char) (k : Nat) : Bool :=
  hashRun t k && wsAt t k && decide (k + 2 ≤ t.length)

/-- Embeds `re.match(r'^(#{1,6})\s+(.+)$', t)` returning the length of the hash group:
the greedy `#{1,6}` tries 6 hashes first and backtracks downwards. -/
def headingLevelSrc (t : List Char) : Option Nat :=
  if headingSrcAt t 6 then some 6
  else if headingSrcAt t 5 then some 5
  else if headingSrcAt t 4 then some 4
  else if headingSrcAt t 3 then some 3
  else if headingSrcAt t 2 then some 2
  else if headingSrcAt t 1 then some 1
  else none

/-- The `(.+)` group of `re.match(r'^#{1,6}\s+(.+)$', t)` when the hash group has length
`k`: the greedy `\s+` takes the whole whitespace run, backtracking by one character when
nothing would remain for `(.+)`. -/
def headingContent (t : List Char) (k : Nat) : List Char :=
  if ((t.drop k).dropWhile isPySpace).isEmpty then
    (t.drop k).drop ((t.drop k).takeWhile isPySpace).length.pred
  else (t.drop k).dropWhile isPySpace

/-- Heading histogram produced by `MarkdownAnalyzer._analyze_headings`. -/
structure Headings where
  h1 : Nat
  h2 : Nat
  h3 : Nat
  h4 : Nat
  h5 : Nat
  h6 : Nat
deriving DecidableEq, Repr

/-- The all-zero histogram. -/
def Headings.zero : Headings := ⟨0, 0, 0, 0, 0, 0⟩

/-- Increment the bucket named by the matched hash-group length (if any). -/
def Headings.bump (h : Headings) : Option Nat → Headings
  | some 1 => { h with h1 := h.h1 + 1 }
  | some 2 => { h with h2 := h.h2 + 1 }
  | some 3 => { h with h3 := h.h3 + 1 }
  | some 4 => { h with h4 := h.h4 + 1 }
  | some 5 => { h with h5 := h.h5 + 1 }
  | some 6 => { h with h6 := h.h6 + 1 }
  | _ => h

/-- Embeds `MarkdownAnalyzer._analyze_headings`: for each line, match
`r'^(#{1,6})\s+(.+)$'` against `line.strip()` and increment that level's bucket. -/
def analyze_headings : List (List Char) → Headings
  | [] => Headings.zero
  | l :: ls => (analyze_headings ls).bump (headingLevelSrc (pyStrip l))

/-- `sum(headings.values())`. -/
def Headings.total (h : Headings) : Nat := h.h1 + h.h2 + h.h3 + h.h4 + h.h5 + h.h6

/-- Try to match the link pattern `\[([^\]]+)\]\(([^\)]+)\)` at the head of the text;
on success return the remainder after the match.  `[^\]]+` and `[^\)]+` are greedy runs
that cannot contain their closing delimiter, so the match is determined by the next
`']'` and the next `')'`. -/
def linkAt (t : List Char) : Option (List Char) :=
  match t with
  | '[' :: r =>
    if (r.takeWhile (fun d => !(d == ']'))).length = 0 then none
    else
      match r.drop (r.takeWhile (fun d => !(d == ']'))).length with
      | ']' :: '(' :: r2 =>
        if (r2.takeWhile (fun d => !(d == ')'))).length = 0 then none
        else
          match r2.drop (r2.takeWhile (fun d => !(d == ')'))).length with
          | ')' :: r3 => some r3
          | _ => none
      | _ => none
  | _ => none

/-- Non-overlapping left-to-right scan counting link matches (fuel-indexed). -/
def countLinksF : Nat → List Char → Nat
  | 0, _ => 0
  | _ + 1, [] => 0
  | fuel + 1, c :: cs =>
    match linkAt (c :: cs) with
    | some rest => 1 + countLinksF fuel rest
    | none => countLinksF fuel cs

/-- Embeds `MarkdownAnalyzer._analyze_links`:
`len(re.findall(r'\[([^\]]+)\]\(([^\)]+)\)', text))`. -/
def analyze_links (t : List Char) : Nat := countLinksF t.length t

/-- Try to match the image pattern `!\[([^\]]*)\]\(([^\)]+)\)` at the head of the text;
on success return the alt text and the remainder.  The alt group `[^\]]*` may be
empty. -/
def imageAt (t : List Char) : Option (List Char × List Char) :=
  match t with
  | '!' :: '[' :: r =>
    match r.drop (r.takeWhile (fun d => !(d == ']'))).length with
    | ']' :: '(' :: r2 =>
      if (r2.takeWhile (fun d => !(d == ')'))).length = 0 then none
      else
        match r2.drop (r2.takeWhile (fun d => !(d == ')'))).length with
        | ')' :: r3 => some (r.takeWhile (fun d => !(d == ']')), r3)
        | _ => none
    | _ => none
  | _ => none

/-- Non-overlapping left-to-right scan counting image matches (fuel-indexed). -/
def countImagesF : Nat → List Char → Nat
  | 0, _ => 0
  | _ + 1, [] => 0
  | fuel + 1, c :: cs =>
    match imageAt (c :: cs) with
    | some r => 1 + countImagesF fuel r.2
    | none => countImagesF fuel cs

/-- Embeds `MarkdownAnalyzer._count_images`:
`len(re.findall(r'!\[([^\]]*)\]\(([^\)]+)\)', text))`. -/
def count_images (t : List Char) : Nat := countImagesF t.length t

/-- The alt texts of all image matches, in scan order (fuel-indexed). -/
def imageAltsF : Nat → List Char → List (List Char)
  | 0, _ => []
  | _ + 1, [] => []
  | fuel + 1, c :: cs =>
    match imageAt (c :: cs) with
    | some r => r.1 :: imageAltsF fuel r.2
    | none => imageAltsF fuel cs

/-- The alt texts of all image matches of the text, in scan order. -/
def imageAlts (t : List Char) : List (List Char) := imageAltsF t.length t

/-- Non-overlapping count of literal `"```"` occurrences (fuel-indexed), as
`re.findall(r'```', text)` produces. -/
def countBq3F : Nat → List Char → Nat
  | 0, _ => 0
  | _ + 1, [] => 0
  | fuel + 1, c :: cs =>
    if startsWithL (c :: cs) bq3 then 1 + countBq3F fuel (cs.drop 2)
    else countBq3F fuel cs

/-- Embeds `MarkdownAnalyzer._count_code_blocks`:
`len(re.findall(r'```', text)) // 2`. -/
def count_code_blocks (t : List Char) : Nat := countBq3F t.length t / 2

/-- A bullet list marker character. -/
def isBullet (c : Char) : Bool := c = '-' || c = '*' || c = '+'

/-- Embeds `re.match(r'^\s*[-*+]\s+', line)`: optional leading whitespace, a bullet,
then at least one whitespace character. -/
def isBulletLine (l : List Char) : Bool :=
  match l.dropWhile isPySpace with
  | c :: d :: _ => isBullet c && isPySpace d
  | _ => false

/-- Embeds `re.match(r'^\s*\d+\.\s+', line)`: optional leading whitespace, a digit run,
a dot, then at least one whitespace character. -/
def isOrderedLine (l : List Char) : Bool :=
  if ((l.dropWhile isPySpace).takeWhile Char.isDigit).length = 0 then false
  else
    match (l.dropWhile isPySpace).drop ((l.dropWhile isPySpace).takeWhile Char.isDigit).length with
    | '.' :: c :: _ => isPySpace c
    | _ => false

/-- Embeds `MarkdownAnalyzer._count_lists`: number of lines matching either marker. -/
def count_lists (lines : List (List Char)) : Nat :=
  lines.countP (fun l => isBulletLine l || isOrderedLine l)

/-- Embeds `MarkdownAnalyzer._count_blockquotes`: lines whose stripped form starts with
`'>'`. -/
def count_blockquotes (lines : List (List Char)) : Nat :=
  lines.countP (fun l => startsWithL (pyStrip l) ['>'])

/-- A pipe-led line: contains `'|'` and its stripped form starts with `'|'`. -/
def pipeLed (l : List Char) : Bool := l.contains '|' && startsWithL (pyStrip l) ['|']

/-- Embeds the loop of `MarkdownAnalyzer._count_tables`, including the literal shape of
its `else` branch (`if in_table and not line.strip().startswith('|'): in_table =
False`). -/
def count_tablesF : Bool → List (List Char) → Nat
  | _, [] => 0
  | inT, l :: ls =>
    if l.contains '|' && startsWithL (pyStrip l) ['|'] then
      (if inT then 0 else 1) + count_tablesF true ls
    else
      count_tablesF (if inT && !(startsWithL (pyStrip l) ['|']) then false else inT) ls

/-- Embeds `MarkdownAnalyzer._count_tables`. -/
def count_tables (lines : List (List Char)) : Nat := count_tablesF false lines

/-- Python `text.split('\n\n')` (fuel-indexed): leftmost non-overlapping split on the
literal two-character separator. -/
def splitPara2F : Nat → List Char → List (List Char)
  | 0, t => [t]
  | _ + 1, [] => [[]]
  | fuel + 1, c :: cs =>
    if startsWithL (c :: cs) ['\n', '\n'] then [] :: splitPara2F fuel (cs.drop 1)
    else
      match splitPara2F fuel cs with
      | [] => [[c]]
      | h :: hs => (c :: h) :: hs

/-- Python `text.split('\n\n')`. -/
def splitPara (t : List Char) : List (List Char) := splitPara2F t.length t

/-- `len(p.split())`: the number of maximal runs of non-whitespace characters. -/
def countTokens (t : List Char) : Nat := countRunsBy (fun c => !(isPySpace c)) false t

/-- `sum(len(p.split()) for p in paragraphs)` for `paragraphs = text.split('\n\n')`. -/
def paraSum (t : List Char) : Nat := ((splitPara t).map countTokens).sum

/-- `max(len(paragraphs), 1)`. -/
def paraDen (t : List Char) : Nat := max (splitPara t).length 1

/-- Embeds `MarkdownAnalyzer._calculate_readability`.  The float average
`sum/len > B` is modelled by the exact comparison `B * len < sum`. -/
def calculate_readability (t : List Char) : Int :=
  max 0 (min 100
    ((if 100 * paraDen t < paraSum t then (100 : Int) - 10
      else if 150 * paraDen t < paraSum t then (100 : Int) - 20
      else 100)
     + (if 1 ≤ (analyze_headings (splitNl t)).h1 ∧ 0 < (analyze_headings (splitNl t)).h2
        then 10 else 0)
     - (if (analyze_headings (splitNl t)).total = 0 ∧ 50 < count_words t then 15 else 0)))

/-- The label strings of `MarkdownAnalyzer._analyze_structure_quality`. -/
def labelNoStructure : String := "No structure"

/-- Label for more than one H1. -/
def labelMultipleH1 : String := "Multiple H1s detected"

/-- Label for exactly one H1 with at least one H2. -/
def labelExcellent : String := "Excellent"

/-- Label for any other case with at least one heading. -/
def labelGood : String := "Good"

/-- Unreachable fallback label, kept from the source. -/
def labelNeedsImprovement : String := "Needs improvement"

/-- Embeds `MarkdownAnalyzer._analyze_structure_quality`. -/
def analyze_structure_quality (t : List Char) : String :=
  if (analyze_headings (splitNl t)).total = 0 then labelNoStructure
  else if 1 < (analyze_headings (splitNl t)).h1 then labelMultipleH1
  else if (analyze_headings (splitNl t)).h1 = 1 ∧ 0 < (analyze_headings (splitNl t)).h2
    then labelExcellent
  else if 0 < (analyze_headings (splitNl t)).total then labelGood
  else labelNeedsImprovement

/-- Try to match the empty-link pattern `\[([^\]]+)\]\(\s*\)` at the head of the text;
on success return the remainder. -/
def emptyLinkAt (t : List Char) : Option (List Char) :=
  match t with
  | '[' :: r =>
    if (r.takeWhile (fun d => !(d == ']'))).length = 0 then none
    else
      match r.drop (r.takeWhile (fun d => !(d == ']'))).length with
      | ']' :: '(' :: r2 =>
        match r2.drop (r2.takeWhile isPySpace).length with
        | ')' :: r3 => some r3
        | _ => none
      | _ => none
  | _ => none

/-- Non-overlapping left-to-right scan counting empty-link matches (fuel-indexed). -/
def countEmptyLinksF : Nat → List Char → Nat
  | 0, _ => 0
  | _ + 1, [] => 0
  | fuel + 1, c :: cs =>
    match emptyLinkAt (c :: cs) with
    | some rest => 1 + countEmptyLinksF fuel rest
    | none => countEmptyLinksF fuel cs

/-- `len(re.findall(r'\[([^\]]+)\]\(\s*\)', text))`. -/
def countEmptyLinks (t : List Char) : Nat := countEmptyLinksF t.length t

/-- The `(.+)` groups of `re.match(r'^#{1,6}\s+(.+)$', line.strip())` over all lines,
in order (the `headings_text` list of `_detect_potential_issues`). -/
def headingTexts : List (List Char) → List (List Char)
  | [] => []
  | l :: ls =>
    match headingLevelSrc (pyStrip l) with
    | some k => headingContent (pyStrip l) k :: headingTexts ls
    | none => headingTexts ls

/-- Number of distinct heading texts occurring more than once
(`[h for h, count in Counter(headings_text).items() if count > 1]`). -/
def dupHeadingCount (lines : List (List Char)) : Nat :=
  ((headingTexts lines).dedup).countP (fun h => 2 ≤ (headingTexts lines).count h)

/-- A very long line: length over 120 and the stripped form does not start with
`'|'`. -/
def isLongLine (l : List Char) : Bool :=
  decide (120 < l.length) && !(startsWithL (pyStrip l) ['|'])

/-- `sum(1 for line in lines if len(line) > 120 and not line.strip().startswith('|'))`. -/
def longLineCount (lines : List (List Char)) : Nat := lines.countP isLongLine

/-- The sentinel returned when no issue is detected. -/
def noIssuesMsg : String := "No issues detected"

/-- Suffix of the empty-link issue string. -/
def emptyLinkMsg : String := " empty link(s)"

/-- Suffix of the duplicate-heading issue string. -/
def dupHeadingMsg : String := " duplicate heading(s)"

/-- Suffix of the long-line issue string. -/
def longLineMsg : String := " very long lines"

/-- Embeds `MarkdownAnalyzer._detect_potential_issues`: three checks append their
strings in order; if none triggered, the single-element sentinel list is returned. -/
def detect_potential_issues (t : List Char) : List String :=
  if ((if 0 < countEmptyLinks t then [toString (countEmptyLinks t) ++ emptyLinkMsg] else [])
      ++ (if 0 < dupHeadingCount (splitNl t)
          then [toString (dupHeadingCount (splitNl t)) ++ dupHeadingMsg] else [])
      ++ (if 5 < longLineCount (splitNl t)
          then [toString (longLineCount (splitNl t)) ++ longLineMsg] else [])) = [] then
    [noIssuesMsg]
  else
    (if 0 < countEmptyLinks t then [toString (countEmptyLinks t) ++ emptyLinkMsg] else [])
    ++ (if 0 < dupHeadingCount (splitNl t)
        then [toString (dupHeadingCount (splitNl t)) ++ dupHeadingMsg] else [])
    ++ (if 5 < longLineCount (splitNl t)
        then [toString (longLineCount (splitNl t)) ++ longLineMsg] else [])

/-- The metrics record returned by `MarkdownAnalyzer.analyze`. -/
structure Metrics where
  word_count : Nat
  char_count : Nat
  line_count : Nat
  reading_time : Nat
  headings : Headings
  links : Nat
  images : Nat
  code_blocks : Nat
  lists : Nat
  blockquotes : Nat
  tables : Nat
  readability_score : Int
  structure_quality : String
  broken_links : List String
deriving DecidableEq, Repr

/-- Embeds `MarkdownAnalyzer.analyze` (with `self.lines = text.split('\n')`). -/
def analyze (t : List Char) : Metrics :=
  { word_count := count_words t
    char_count := t.length
    line_count := (splitNl t).length
    reading_time := estimate_reading_time t
    headings := analyze_headings (splitNl t)
    links := analyze_links t
    images := count_images t
    code_blocks := count_code_blocks t
    lists := count_lists (splitNl t)
    blockquotes := count_blockquotes (splitNl t)
    tables := count_tables (splitNl t)
    readability_score := calculate_readability t
    structure_quality := analyze_structure_quality t
    broken_links := detect_potential_issues t }

/-- A match of `re.match(r'^(#{1,6})(\S)', t)` in which the hash group took exactly `k`
characters: `k` hashes followed immediately by a non-whitespace character. -/
def fmtHeadingAt (t : List Char) (k : Nat) : Bool := hashRun t k && nonWsAt t k

/-- Embeds `re.match(r'^(#{1,6})(\S)', stripped)` of `format_markdown`, returning the
length of the hash group: the greedy `#{1,6}` tries 6 hashes first and backtracks
downwards, so e.g. `"## x"` matches with a hash group of length 1 (the second `'#'`
serves as the `\S`). -/
def fmtHeadingLevel (t : List Char) : Option Nat :=
  if fmtHeadingAt t 6 then some 6
  else if fmtHeadingAt t 5 then some 5
  else if fmtHeadingAt t 4 then some 4
  else if fmtHeadingAt t 3 then some 3
  else if fmtHeadingAt t 2 then some 2
  else if fmtHeadingAt t 1 then some 1
  else none

/-- Embeds the bullet-list branch of `format_markdown`: if
`re.match(r'^(\s*)([-*+])(\S)', line)` succeeds, rewrite via
`^(\s*)([-*+])(.*)$` to `f"{indent}{marker} {content.strip()}"`. -/
def bulletRewrite (l : List Char) : Option (List Char) :=
  match l.dropWhile isPySpace with
  | c :: d :: rest =>
    if isBullet c && !(isPySpace d) then
      some (l.takeWhile isPySpace ++ [c] ++ [' '] ++ pyStrip (d :: rest))
    else none
  | _ => none

/-- Embeds the ordered-list branch of `format_markdown`: if
`re.match(r'^(\s*)(\d+\.)(\S)', line)` succeeds, rewrite via
`^(\s*)(\d+\.)(.*)$` to `f"{indent}{marker} {content.strip()}"`. -/
def orderedRewrite (l : List Char) : Option (List Char) :=
  if ((l.dropWhile isPySpace).takeWhile Char.isDigit).length = 0 then none
  else
    match (l.dropWhile isPySpace).drop ((l.dropWhile isPySpace).takeWhile Char.isDigit).length with
    | '.' :: d :: rest =>
      if !(isPySpace d) then
        some (l.takeWhile isPySpace ++ (l.dropWhile isPySpace).takeWhile Char.isDigit
              ++ ['.'] ++ [' '] ++ pyStrip (d :: rest))
      else none
    | _ => none

/-- Embeds the main loop of `format_markdown`: `i` is the input line index,
`prevHeading`/`prevEmpty` the two carried flags (`prev_was_heading` is written but never
read by the source; it is threaded here for fidelity). -/
def fmtLoop : Nat → Bool → Bool → List (List Char) → List (List Char)
  | _, _, _, [] => []
  | i, prevHeading, prevEmpty, l :: ls =>
    (if startsWithL (pyStrip l) ['#'] && decide (0 < i) && !prevEmpty then [([] : List Char)] else [])
    ++ match (if startsWithL (pyStrip l) ['#'] then fmtHeadingLevel (pyStrip l) else none) with
       | some k =>
         (List.replicate k '#' ++ [' '] ++ (pyStrip l).drop k) :: fmtLoop (i + 1) true false ls
       | none =>
         match bulletRewrite l with
         | some out => out :: fmtLoop (i + 1) false false ls
         | none =>
           match orderedRewrite l with
           | some out => out :: fmtLoop (i + 1) false false ls
           | none =>
             if (pyStrip l).isEmpty then
               if prevEmpty then fmtLoop (i + 1) prevHeading true ls
               else [] :: fmtLoop (i + 1) prevHeading true ls
             else l :: fmtLoop (i + 1) false false ls

/-- `while formatted_lines and not formatted_lines[-1]: formatted_lines.pop()`. -/
def dropTrailingEmpty (ls : List (List Char)) : List (List Char) :=
  (ls.reverse.dropWhile List.isEmpty).reverse

/-- `'\n'.join(lines)`. -/
def joinNl : List (List Char) → List Char
  | [] => []
  | [l] => l
  | l :: ls => l ++ '\n' :: joinNl ls

/-- Embeds `MarkdownEditor.format_markdown`. -/
def format_markdown (t : List Char) : List Char :=
  joinNl (dropTrailingEmpty (fmtLoop 0 false false (splitNl t)))

/-- Embeds `QRegularExpression(r"^\s{0,3}(```|~~~)").match(text).hasMatch()`: the greedy
`\s{0,3}` with backtracking succeeds exactly when some `j ≤ 3` leading whitespace
characters are followed by a triple backtick or triple tilde. -/
def isFenceLine (l : List Char) : Bool :=
  (List.range 4).any (fun j =>
    (l.take j).all isPySpace && (startsWithL (l.drop j) bq3 || startsWithL (l.drop j) td3))

/-- The carry-state of the line classifier: `previousBlockState() == 1` means
in-fence. -/
inductive HState where
  | normal : HState
  | inFence : HState
deriving DecidableEq, Repr

/-- Embeds `MarkdownSyntaxHighlighter.highlightBlock` for one line: the returned `Bool`
records whether the entire line was painted with the code-block format (the two early
`setFormat(0, len(text), self._codeblock_format)` branches); the rule-based spans of the
normal branch paint with other formats and are not part of any fence-state claim. -/
def highlightBlock (st : HState) (l : List Char) : Bool × HState :=
  match st with
  | HState.inFence => (true, if isFenceLine l then HState.normal else HState.inFence)
  | HState.normal =>
    if isFenceLine l then (true, HState.inFence) else (false, HState.normal)

/-- Fold `highlightBlock` over a document's lines, returning the per-line
painted-as-code flags and the final carry-state. -/
def highlightDoc : HState → List (List Char) → List Bool × HState
  | st, [] => ([], st)
  | st, l :: ls =>
    ((highlightBlock st l).1 :: (highlightDoc (highlightBlock st l).2 ls).1,
     (highlightDoc (highlightBlock st l).2 ls).2)

/-!
Claim-side definitions.  Each follows the words of a spec claim (not the source) and is
compared with the corresponding source embedding by the claim's theorem.
-/

/-- The leftmost fence delimiter occurrence named by claim C3: either `"```"` or
`"~~~"`, whichever occurs first. -/
def claimPickDelim (t : List Char) : Option (Nat × List Char) :=
  match findSubIdx bq3 t, findSubIdx td3 t with
  | none, none => none
  | some i, none => some (i, bq3)
  | none, some j => some (j, td3)
  | some i, some j => if i ≤ j then some (i, bq3) else some (j, td3)

/-- Fence stripping as claim C3 words it: remove content between paired triple-backtick
or triple-tilde delimiters, non-greedy (each opener pairs with the next occurrence of
the same delimiter); an unpaired opener is left in place. -/
def claimStripFencesF : Nat → List Char → List Char
  | 0, t => t
  | fuel + 1, t =>
    match claimPickDelim t with
    | none => t
    | some (i, d) =>
      match findSubIdx d (t.drop (i + 3)) with
      | none => t
      | some j => t.take i ++ claimStripFencesF fuel ((t.drop (i + 3)).drop (j + 3))

/-- Fence stripping as claim C3 words it, with adequate fuel. -/
def claimStripFences (t : List Char) : List Char := claimStripFencesF t.length t

/-- Inline-code stripping as claim C3 words it: single-backtick delimited spans that do
not span newlines. -/
def claimStripInlineF : Nat → List Char → List Char
  | 0, t => t
  | _ + 1, [] => []
  | fuel + 1, c :: cs =>
    if c = btick then
      if 0 < (cs.takeWhile (fun d => !(d == btick) && !(d == '\n'))).length ∧
          startsWithL (cs.drop (cs.takeWhile (fun d => !(d == btick) && !(d == '\n'))).length)
            [btick] = true then
        claimStripInlineF fuel
          (cs.drop ((cs.takeWhile (fun d => !(d == btick) && !(d == '\n'))).length + 1))
      else c :: claimStripInlineF fuel cs
    else c :: claimStripInlineF fuel cs

/-- Inline-code stripping as claim C3 words it, with adequate fuel. -/
def claimStripInline (t : List Char) : List Char := claimStripInlineF t.length t

/-- The word counter as claim C3 states it: strip paired triple-backtick or triple-tilde
fences, then non-newline-spanning inline code spans, then count maximal word-character
runs. -/
def count_words_claimed (t : List Char) : Nat :=
  countWordRuns (claimStripInline (claimStripFences t))

/-- The heading test as claim C6 words it: the trimmed line consists of 1 to 6 `'#'`
characters, then at least one whitespace character, then non-empty content; the result
is the hash count. -/
def claimHeadingLevel (t : List Char) : Option Nat :=
  if 1 ≤ (t.takeWhile (fun c => c == '#')).length ∧
      (t.takeWhile (fun c => c == '#')).length ≤ 6 ∧
      wsAt t (t.takeWhile (fun c => c == '#')).length = true ∧
      (t.drop (t.takeWhile (fun c => c == '#')).length).dropWhile isPySpace ≠ [] then
    some (t.takeWhile (fun c => c == '#')).length
  else none

/-- Number of maximal runs of `true` in a list of flags, given the previous flag. -/
def runCount : Bool → List Bool → Nat
  | _, [] => 0
  | prev, b :: bs => (if b && !prev then 1 else 0) + runCount b bs

/-- The table count as claim C7 words it: the number of maximal runs of pipe-led
lines. -/
def claimTableRuns (lines : List (List Char)) : Nat := runCount false (lines.map pipeLed)

/-- The fence-delimiter line test as claim C5 words it: at most 3 characters of leading
whitespace, then a triple backtick or triple tilde. -/
def claimFenceLine (l : List Char) : Bool :=
  decide ((l.takeWhile isPySpace).length ≤ 3) &&
    (startsWithL (l.dropWhile isPySpace) bq3 || startsWithL (l.dropWhile isPySpace) td3)

/-- The readability score before clamping, as claim C4 words it: start at 100, subtract
10 when the average paragraph word count exceeds 100 (the `> 150` branch is never
taken and is omitted here), add the heading bonus, subtract the no-headings penalty. -/
def readabilityUnclamped (t : List Char) : Int :=
  100 - (if 100 * paraDen t < paraSum t then (10 : Int) else 0)
    + (if 1 ≤ (analyze_headings (splitNl t)).h1 ∧ 0 < (analyze_headings (splitNl t)).h2
       then (10 : Int) else 0)
    - (if (analyze_headings (splitNl t)).total = 0 ∧ 50 < count_words t then (15 : Int)
       else 0)

/-!
Concrete inputs used by counterexamples and witnesses.
-/

/-- The failing input of claim C1 (as a string). -/
def exC1s : String := "##x"

/-- The failing input of claim C1: a heading line whose hashes are not followed by a
space. -/
def exC1 : List Char := exC1s.toList

/-- A tilde-fenced document (claim C3's counterexample, as a string). -/
def exC3s : String := "~~~\nfoo\n~~~"

/-- A tilde-fenced document: the source word counter does not strip tilde fences. -/
def exC3 : List Char := exC3s.toList

/-- A document with no triple backtick (for claim C3's witness, as a string). -/
def exC3rs : String := "\nplain code\n"

/-- A document with no triple backtick, used after an opening fence. -/
def exC3r : List Char := exC3rs.toList

/-- An inline code span containing a newline (for claim C3's witness, as a string). -/
def exC3as : String := "a b"

/-- The content of a newline-containing inline code span. -/
def exC3a : List Char := 'a' :: '\n' :: 'b' :: []

/-- An input whose unclamped readability score is 110 (claim C4, as a string). -/
def exC4s : String := "# a\n## b"

/-- An input whose unclamped readability score is 110. -/
def exC4 : List Char := exC4s.toList

/-- An opening fence followed by a code line and no closing fence (claim C5, as a
string). -/
def exC5s : String := "```\ncode"

/-- An opening fence followed by a code line and no closing fence. -/
def exC5 : List Char := exC5s.toList

/-- A line with seven hashes (claim C6, as a string). -/
def exC6as : String := "####### not a heading"

/-- A line with seven hashes: not a heading at any level. -/
def exC6a : List Char := exC6as.toList

/-- A level-1 heading line (claim C6, as a string). -/
def exC6bs : String := "# Title"

/-- A level-1 heading line. -/
def exC6b : List Char := exC6bs.toList

/-- Three consecutive pipe-led lines (claim C7, as a string). -/
def exC7as : String := "|a|\n|b|\n|c|"

/-- Three consecutive pipe-led lines: one table run. -/
def exC7a : List Char := exC7as.toList

/-- Two pipe-led blocks separated by a non-pipe line (claim C7, as a string). -/
def exC7bs : String := "|a|\nx\n|b|"

/-- Two pipe-led blocks separated by a non-pipe line: two table runs. -/
def exC7b : List Char := exC7bs.toList

/-- An image with empty alt text (claim C8's counterexample, as a string). -/
def exC8s : String := "![](u)"

/-- An image with empty alt text: one image match but no link match. -/
def exC8 : List Char := exC8s.toList

/-- Two images with non-empty alt text (claim C8's witness, as a string). -/
def exC8ws : String := "![a](u) and ![b](v)"

/-- Two images with non-empty alt text. -/
def exC8w : List Char := exC8ws.toList

/-!
Helper lemmas about the scanning primitives.
-/

/-- The head of the list fails `p` (false for the empty list). -/
def headFalse (p : Char → Bool) : List Char → Bool
  | [] => false
  | c :: _ => !(p c)

/-- The list has no trailing whitespace (true for the empty list). -/
def noWsEnd (t : List Char) : Bool :=
  match t.reverse with
  | [] => true
  | c :: _ => !(isPySpace c)

theorem all_takeWhile (p : Char → Bool) : ∀ l : List Char, (l.takeWhile p).all p = true := by
  intro l
  induction l with
  | nil => rfl
  | cons c cs ih =>
    by_cases h : p c = true
    · simp [List.takeWhile_cons, h, ih]
    · simp [List.takeWhile_cons, h]

theorem take_len_takeWhile (p : Char → Bool) :
    ∀ l : List Char, l.take (l.takeWhile p).length = l.takeWhile p := by
  intro l
  induction l with
  | nil => rfl
  | cons c cs ih =>
    by_cases h : p c = true
    · simp [List.takeWhile_cons, h, List.take_succ_cons, ih]
    · simp [List.takeWhile_cons, h]

theorem drop_len_takeWhile (p : Char → Bool) :
    ∀ l : List Char, l.drop (l.takeWhile p).length = l.dropWhile p := by
  intro l
  induction l with
  | nil => rfl
  | cons c cs ih =>
    by_cases h : p c = true
    · simp [List.takeWhile_cons, List.dropWhile_cons, h, List.drop_succ_cons, ih]
    · simp [List.takeWhile_cons, List.dropWhile_cons, h]

theorem takeWhile_eq_take (p : Char → Bool) :
    ∀ (j : Nat) (l : List Char), (l.take j).all p = true →
      headFalse p (l.drop j) = true → l.takeWhile p = l.take j := by
  intro j
  induction j with
  | zero =>
    intro l _ hd
    match l with
    | [] => simp [headFalse] at hd
    | c :: cs =>
      simp only [headFalse, List.drop_zero] at hd
      have hc : p c = false := by simpa using hd
      simp [List.takeWhile_cons, hc]
  | succ j ih =>
    intro l ha hd
    match l with
    | [] => simp [headFalse] at hd
    | c :: cs =>
      simp only [List.take_succ_cons, List.all_cons, Bool.and_eq_true] at ha
      simp only [List.drop_succ_cons] at hd
      simp [List.takeWhile_cons, ha.1, ih cs ha.2 hd]

theorem dropWhile_nil_all (p : Char → Bool) :
    ∀ l : List Char, l.dropWhile p = [] → l.all p = true := by
  intro l
  induction l with
  | nil => intro _; rfl
  | cons c cs ih =>
    intro h
    by_cases hc : p c = true
    · simp only [List.dropWhile_cons, hc, if_pos] at h
      simp [hc, ih h]
    · simp [List.dropWhile_cons, hc] at h

theorem dropWhile_headFalse (p : Char → Bool) :
    ∀ l : List Char, l.dropWhile p = [] ∨ headFalse p (l.dropWhile p) = true := by
  intro l
  induction l with
  | nil => exact Or.inl rfl
  | cons c cs ih =>
    by_cases hc : p c = true
    · simpa [List.dropWhile_cons, hc] using ih
    · right
      simp [List.dropWhile_cons, hc, headFalse]

theorem startsWithL_cons (t : List Char) (x : Char) (xs : List Char)
    (h : startsWithL t (x :: xs) = true) :
    ∃ r, t = x :: r ∧ startsWithL r xs = true := by
  match t with
  | [] => simp [startsWithL] at h
  | c :: cs =>
    simp only [startsWithL, Bool.and_eq_true, decide_eq_true_eq] at h
    exact ⟨cs, by rw [h.1], h.2⟩

theorem startsWithL_append_self (p r : List Char) : startsWithL (p ++ r) p = true := by
  induction p with
  | nil => simp [startsWithL]
  | cons c cs ih => simp [startsWithL, ih]

theorem mem_pyStrip {a : Char} {l : List Char} (h : a ∈ pyStrip l) : a ∈ l := by
  unfold pyStrip at h
  rw [List.mem_reverse] at h
  have h2 := (List.dropWhile_sublist (l := (l.dropWhile isPySpace).reverse)
    (p := isPySpace)).subset h
  rw [List.mem_reverse] at h2
  exact (List.dropWhile_sublist (l := l) (p := isPySpace)).subset h2

theorem pyStrip_rev (l : List Char) :
    (pyStrip l).reverse = ((l.dropWhile isPySpace).reverse).dropWhile isPySpace := by
  simp [pyStrip]

theorem pyStrip_noWsEnd (l : List Char) : noWsEnd (pyStrip l) = true := by
  unfold noWsEnd
  rw [pyStrip_rev]
  rcases dropWhile_headFalse isPySpace ((l.dropWhile isPySpace).reverse) with h | h
  · rw [h]
  · rcases hm : ((l.dropWhile isPySpace).reverse).dropWhile isPySpace with _ | ⟨c, cs⟩
    · rfl
    · rw [hm] at h
      simpa [headFalse] using h

/-!
Claims.
-/

theorem fence_fwd (l : List Char) (h : isFenceLine l = true) : claimFenceLine l = true := by
  unfold isFenceLine at h
  rw [List.any_eq_true] at h
  obtain ⟨j, hj, hcond⟩ := h
  rw [Bool.and_eq_true, Bool.or_eq_true] at hcond
  obtain ⟨hall, hsw⟩ := hcond
  have hdf : headFalse isPySpace (l.drop j) = true := by
    rcases hsw with hsw | hsw
    · simp only [bq3] at hsw
      obtain ⟨r, hr, _⟩ := startsWithL_cons _ _ _ hsw
      rw [hr]
      simp only [headFalse]
      decide
    · simp only [td3] at hsw
      obtain ⟨r, hr, _⟩ := startsWithL_cons _ _ _ hsw
      rw [hr]
      simp only [headFalse]
      decide
  have hjlen : j < l.length := by
    have : l.drop j ≠ [] := by
      intro hnil
      rw [hnil] at hdf
      simp [headFalse] at hdf
    have hld := List.length_drop j l
    rcases Nat.lt_or_ge j l.length with h' | h'
    · exact h'
    · exact absurd (List.drop_eq_nil_of_le h') this
  have htw : l.takeWhile isPySpace = l.take j := takeWhile_eq_take _ j l hall hdf
  have hlen : (l.takeWhile isPySpace).length = j := by
    rw [htw, List.length_take]
    omega
  unfold claimFenceLine
  rw [Bool.and_eq_true, Bool.or_eq_true]
  have hdw : l.dropWhile isPySpace = l.drop j := by
    rw [← drop_len_takeWhile isPySpace l, hlen]
  constructor
  · rw [decide_eq_true_eq, hlen]
    exact Nat.lt_succ_iff.mp (List.mem_range.mp hj)
  · rw [hdw]
    exact hsw

theorem fence_bwd (l : List Char) (h : claimFenceLine l = true) : isFenceLine l = true := by
  unfold claimFenceLine at h
  rw [Bool.and_eq_true, decide_eq_true_eq] at h
  obtain ⟨h3, hsw⟩ := h
  unfold isFenceLine
  rw [List.any_eq_true]
  refine ⟨(l.takeWhile isPySpace).length, List.mem_range.mpr (by omega), ?_⟩
  rw [Bool.and_eq_true]
  constructor
  · rw [take_len_takeWhile]
    exact all_takeWhile _ _
  · rw [drop_len_takeWhile]
    exact hsw

theorem isFenceLine_eq_claim (l : List Char) : isFenceLine l = claimFenceLine l := by
  by_cases hf : isFenceLine l = true
  · rw [hf, fence_fwd l hf]
  · by_cases hc : claimFenceLine l = true
    · exact absurd (fence_bwd l hc) hf
    · rw [Bool.not_eq_true] at hf hc
      rw [hf, hc]

theorem sw_pipe_contains (l : List Char) (h : startsWithL (pyStrip l) ['|'] = true) :
    l.contains '|' = true := by
  obtain ⟨r, hr, _⟩ := startsWithL_cons _ _ _ h
  have : '|' ∈ pyStrip l := by
    rw [hr]
    exact List.mem_cons_self _ _
  have hm := mem_pyStrip this
  simpa [List.contains] using hm

theorem count_tablesF_eq_runCount :
    ∀ (ls : List (List Char)) (inT : Bool),
      count_tablesF inT ls = runCount inT (ls.map pipeLed) := by
  intro ls
  induction ls with
  | nil => intro inT; rfl
  | cons l ls ih =>
    intro inT
    by_cases hp : pipeLed l = true
    · have hc : (l.contains '|' && startsWithL (pyStrip l) ['|']) = true := hp
      simp only [count_tablesF, List.map_cons, runCount, hc, hp, ih]
      cases inT <;> simp
    · have hc : (l.contains '|' && startsWithL (pyStrip l) ['|']) = false := by
        simpa [pipeLed] using hp
      have hsw : startsWithL (pyStrip l) ['|'] = false := by
        by_cases hs : startsWithL (pyStrip l) ['|'] = true
        · rw [sw_pipe_contains l hs, hs] at hc
          simp at hc
        · exact Bool.not_eq_true _ |>.mp hs
      have hpf : pipeLed l = false := Bool.not_eq_true _ |>.mp hp
      simp only [count_tablesF, List.map_cons, runCount, hc, hpf, hsw, ih]
      cases inT <;> simp

/-- C7 (confirmed): the table counter counts maximal runs of pipe-led lines — a pipe-led
line increments the count exactly on the transition from not-in-table to in-table and
the flag clears on any non-pipe-led line; three consecutive pipe-led lines count as one
table, two pipe-led blocks separated by a non-pipe line count as two. -/
theorem c7_table_runs :
    (∀ lines : List (List Char), count_tables lines = claimTableRuns lines)
    ∧ count_tables (splitNl exC7a) = 1 ∧ count_tables (splitNl exC7b) = 2 := by
  refine ⟨fun lines => count_tablesF_eq_runCount lines false, by decide, by decide⟩

/-- C5 (confirmed): while in the in-fence state the whole line is painted as code and
the state returns to normal exactly on a fence-delimiter line (at most three characters
of leading whitespace then three backticks or three tildes); for an opening fence
followed by a code line with no closing fence, the final carry-state is in-fence and the
inner line is painted entirely as code. -/
theorem c5_fence_state :
    (∀ l : List Char, (highlightBlock HState.inFence l).1 = true)
    ∧ (∀ l : List Char,
        (highlightBlock HState.inFence l).2 =
          (if isFenceLine l = true then HState.normal else HState.inFence))
    ∧ (∀ l : List Char, isFenceLine l = claimFenceLine l)
    ∧ highlightDoc HState.normal (splitNl exC5) = ([true, true], HState.inFence) := by
  refine ⟨fun l => rfl, fun l => ?_, isFenceLine_eq_claim, by decide⟩
  by_cases hf : isFenceLine l = true <;> simp [highlightBlock, hf]

theorem splitNl_ne_nil (t : List Char) : splitNl t ≠ [] := by
  match t with
  | [] => simp [splitNl]
  | c :: cs =>
    by_cases h : c = '\n'
    · simp [splitNl, h]
    · simp only [splitNl, if_neg h]
      rcases hm : splitNl cs with _ | ⟨hd, tl⟩ <;> simp

theorem splitNl_length (t : List Char) : (splitNl t).length = t.count '\n' + 1 := by
  induction t with
  | nil => rfl
  | cons c cs ih =>
    by_cases h : c = '\n'
    · simp [splitNl, h, List.count_cons, ih]
    · have hne := splitNl_ne_nil cs
      rcases hm : splitNl cs with _ | ⟨hd, tl⟩
      · exact absurd hm hne
      · rw [hm] at ih
        simp only [splitNl, if_neg h, hm]
        simp only [List.length_cons] at ih ⊢
        rw [List.count_cons]
        simp [h, ih]

/-- C10 (confirmed): the character count is the exact length of the input and the line
count is the number of newline characters plus one, hence at least 1 for every input;
for the empty string the analyzer reports a line count of 1. -/
theorem c10_char_line_counts :
    (∀ t : List Char,
      (analyze t).char_count = t.length
      ∧ (analyze t).line_count = t.count '\n' + 1
      ∧ 1 ≤ (analyze t).line_count)
    ∧ (analyze ([] : List Char)).line_count = 1 := by
  refine ⟨fun t => ⟨rfl, ?_, ?_⟩, by decide⟩
  · exact splitNl_length t
  · show 1 ≤ (splitNl t).length
    rw [splitNl_length t]
    omega

/-- C4 (confirmed): the readability score equals the clamp into `[0, 100]` of the
claim's elif-free formula — start at 100, subtract 10 when the average paragraph word
count exceeds 100 (the `> 150` subtract-20 branch is never taken since its condition
implies the first), add 10 for at least one H1 and one H2, subtract 15 for zero headings
with more than 50 words — and the returned score always lies in `[0, 100]`; the input
`"# a\n## b"` would score 110 unclamped and is returned as 100. -/
theorem c4_readability :
    (∀ t : List Char,
      calculate_readability t = max 0 (min 100 (readabilityUnclamped t))
      ∧ 0 ≤ calculate_readability t ∧ calculate_readability t ≤ 100)
    ∧ readabilityUnclamped exC4 = 110 ∧ calculate_readability exC4 = 100 := by
  refine ⟨fun t => ⟨?_, ?_, ?_⟩, by decide, by decide⟩
  · unfold calculate_readability readabilityUnclamped
    by_cases h1 : 100 * paraDen t < paraSum t
    · simp only [if_pos h1]
    · have h2 : ¬ (150 * paraDen t < paraSum t) := by omega
      simp only [if_neg h1, if_neg h2]
      norm_num
  · exact le_max_left _ _
  · exact max_le (by norm_num) (min_le_left _ _)

/-- C9 (confirmed): the issue detector never returns an empty list — when none of the
three checks (empty links, duplicate headings, long-line outliers) triggers it returns
exactly `["No issues detected"]`, and otherwise exactly the strings of the triggered
checks, in check order. -/
theorem c9_issues_nonempty :
    ∀ t : List Char,
      detect_potential_issues t ≠ []
      ∧ detect_potential_issues t =
          (if ¬ 0 < countEmptyLinks t ∧ ¬ 0 < dupHeadingCount (splitNl t)
              ∧ ¬ 5 < longLineCount (splitNl t) then [noIssuesMsg]
           else
             (if 0 < countEmptyLinks t
              then [toString (countEmptyLinks t) ++ emptyLinkMsg] else [])
             ++ (if 0 < dupHeadingCount (splitNl t)
                 then [toString (dupHeadingCount (splitNl t)) ++ dupHeadingMsg] else [])
             ++ (if 5 < longLineCount (splitNl t)
                 then [toString (longLineCount (splitNl t)) ++ longLineMsg] else [])) := by
  intro t
  unfold detect_potential_issues
  by_cases he : 0 < countEmptyLinks t <;>
    by_cases hd : 0 < dupHeadingCount (splitNl t) <;>
      by_cases hl : 5 < longLineCount (splitNl t) <;>
        simp [he, hd, hl]

theorem ws_ne_hash {c : Char} (h : isPySpace c = true) : (c == '#') = false := by
  rcases Bool.eq_false_or_eq_true (c == '#') with hb | hb
  · have hc : c = '#' := by simpa using hb
    subst hc
    exact absurd h (by decide)
  · exact hb

theorem headingSrcAt_level (t : List Char) (k : Nat) (h : headingSrcAt t k = true) :
    (t.takeWhile (fun c => c == '#')).length = k := by
  unfold headingSrcAt at h
  rw [Bool.and_eq_true, Bool.and_eq_true, decide_eq_true_eq] at h
  obtain ⟨⟨hr, hw⟩, hlen⟩ := h
  unfold hashRun at hr
  rw [decide_eq_true_eq] at hr
  have hall : (t.take k).all (fun c => c == '#') = true := by
    rw [hr]
    simp [List.all_eq_true, List.mem_replicate]
  have hdf : headFalse (fun c => c == '#') (t.drop k) = true := by
    unfold wsAt at hw
    rcases hd : t.drop k with _ | ⟨c, r⟩
    · rw [hd] at hw
      simp at hw
    · rw [hd] at hw
      simp only [headFalse]
      rw [ws_ne_hash hw]
      rfl
  have htw := takeWhile_eq_take (fun c => c == '#') k t hall hdf
  rw [htw, List.length_take]
  omega

theorem headingSrcAt_n_iff (t : List Char) (hend : noWsEnd t = true) :
    headingSrcAt t (t.takeWhile (fun c => c == '#')).length = true
    ↔ (wsAt t (t.takeWhile (fun c => c == '#')).length = true
       ∧ (t.drop (t.takeWhile (fun c => c == '#')).length).dropWhile isPySpace ≠ []) := by
  constructor
  · intro h
    have h' := h
    unfold headingSrcAt at h'
    rw [Bool.and_eq_true, Bool.and_eq_true, decide_eq_true_eq] at h'
    obtain ⟨⟨hr, hw⟩, hlen⟩ := h'
    refine ⟨hw, ?_⟩
    intro hnil
    have hallws := dropWhile_nil_all isPySpace _ hnil
    have hdne : t.drop (t.takeWhile (fun c => c == '#')).length ≠ [] := by
      intro hd
      have := List.length_drop (t.takeWhile (fun c => c == '#')).length t
      rw [hd] at this
      simp at this
      omega
    rcases hrev : (t.drop (t.takeWhile (fun c => c == '#')).length).reverse with _ | ⟨d, ds⟩
    · exact hdne (by simpa using congrArg List.reverse hrev)
    · have hdmem : d ∈ t.drop (t.takeWhile (fun c => c == '#')).length := by
        rw [← List.mem_reverse, hrev]
        exact List.mem_cons_self _ _
      have hdws : isPySpace d = true := by
        rw [List.all_eq_true] at hallws
        exact hallws d hdmem
      have htrev : t.reverse = d :: (ds ++ (t.take (t.takeWhile (fun c => c == '#')).length).reverse) := by
        conv_lhs => rw [← List.take_append_drop (t.takeWhile (fun c => c == '#')).length t]
        rw [List.reverse_append, hrev]
        simp
      unfold noWsEnd at hend
      rw [htrev] at hend
      simp only at hend
      rw [hdws] at hend
      simp at hend
  · rintro ⟨hw, hc⟩
    unfold headingSrcAt
    rw [Bool.and_eq_true, Bool.and_eq_true, decide_eq_true_eq]
    have hkle : (t.takeWhile (fun c => c == '#')).length < t.length := by
      unfold wsAt at hw
      rcases hd : t.drop (t.takeWhile (fun c => c == '#')).length with _ | ⟨c, r⟩
      · rw [hd] at hw
        simp at hw
      · have := List.length_drop (t.takeWhile (fun c => c == '#')).length t
        rw [hd] at this
        simp only [List.length_cons] at this
        omega
    refine ⟨⟨?_, hw⟩, ?_⟩
    · unfold hashRun
      rw [decide_eq_true_eq, take_len_takeWhile]
      rw [List.eq_replicate_iff]
      refine ⟨rfl, ?_⟩
      intro b hb
      have := all_takeWhile (fun c => c == '#') t
      rw [List.all_eq_true] at this
      have hbeq := this b hb
      simpa using hbeq
    · unfold wsAt at hw
      rcases hd : t.drop (t.takeWhile (fun c => c == '#')).length with _ | ⟨c, r⟩
      · rw [hd] at hw
        simp at hw
      · rw [hd] at hw hc
        have hw' : isPySpace c = true := hw
        have hrne : r ≠ [] := by
          intro hr0
          rw [hr0] at hc
          simp [List.dropWhile_cons, hw'] at hc
        have := List.length_drop (t.takeWhile (fun c => c == '#')).length t
        rw [hd] at this
        simp only [List.length_cons] at this
        rcases hr : r with _ | ⟨x, xs⟩
        · exact absurd hr hrne
        · rw [hr] at this
          simp only [List.length_cons] at this
          omega

theorem headingLevelSrc_eq_claim (t : List Char) (hend : noWsEnd t = true) :
    headingLevelSrc t = claimHeadingLevel t := by
  by_cases hcl : 1 ≤ (t.takeWhile (fun c => c == '#')).length ∧
      (t.takeWhile (fun c => c == '#')).length ≤ 6 ∧
      wsAt t (t.takeWhile (fun c => c == '#')).length = true ∧
      (t.drop (t.takeWhile (fun c => c == '#')).length).dropWhile isPySpace ≠ []
  · obtain ⟨hb1, hb2, hw, hc⟩ := hcl
    have hAt : headingSrcAt t (t.takeWhile (fun c => c == '#')).length = true :=
      (headingSrcAt_n_iff t hend).mpr ⟨hw, hc⟩
    have hF : ∀ k, k ≠ (t.takeWhile (fun c => c == '#')).length → headingSrcAt t k = false := by
      intro k hk
      rcases hb : headingSrcAt t k with _ | _
      · rfl
      · exact absurd (headingSrcAt_level t k hb).symm hk
    have hclaim : claimHeadingLevel t = some (t.takeWhile (fun c => c == '#')).length := by
      unfold claimHeadingLevel
      rw [if_pos ⟨hb1, hb2, hw, hc⟩]
    rw [hclaim]
    have hn : (t.takeWhile (fun c => c == '#')).length = 1
        ∨ (t.takeWhile (fun c => c == '#')).length = 2
        ∨ (t.takeWhile (fun c => c == '#')).length = 3
        ∨ (t.takeWhile (fun c => c == '#')).length = 4
        ∨ (t.takeWhile (fun c => c == '#')).length = 5
        ∨ (t.takeWhile (fun c => c == '#')).length = 6 := by omega
    rcases hn with hn | hn | hn | hn | hn | hn <;>
      rw [hn] at hAt hF ⊢ <;>
        simp only [headingLevelSrc] <;>
          first
          | simp [hAt, hF 6 (by omega), hF 5 (by omega), hF 4 (by omega), hF 3 (by omega),
              hF 2 (by omega)]
          | simp [hAt, hF 6 (by omega), hF 5 (by omega), hF 4 (by omega), hF 3 (by omega)]
          | simp [hAt, hF 6 (by omega), hF 5 (by omega), hF 4 (by omega)]
          | simp [hAt, hF 6 (by omega), hF 5 (by omega)]
          | simp [hAt, hF 6 (by omega)]
          | simp [hAt]
  · have hF : ∀ k, 1 ≤ k → k ≤ 6 → headingSrcAt t k = false := by
      intro k h1 h6
      rcases hb : headingSrcAt t k with _ | _
      · rfl
      · have hkn := headingSrcAt_level t k hb
        have hiff := (headingSrcAt_n_iff t hend).mp (by rw [hkn]; exact hb)
        exact absurd ⟨by omega, by omega, hiff.1, hiff.2⟩ hcl
    have hclaim : claimHeadingLevel t = none := by
      unfold claimHeadingLevel
      rw [if_neg hcl]
    rw [hclaim]
    simp [headingLevelSrc, hF 6 (by omega) (by omega), hF 5 (by omega) (by omega),
      hF 4 (by omega) (by omega), hF 3 (by omega) (by omega), hF 2 (by omega) (by omega),
      hF 1 (by omega) (by omega)]

theorem headingLevelSrc_strip (l : List Char) :
    headingLevelSrc (pyStrip l) = claimHeadingLevel (pyStrip l) :=
  headingLevelSrc_eq_claim _ (pyStrip_noWsEnd l)

theorem claimHeadingLevel_some_bounds {t : List Char} {k : Nat}
    (h : claimHeadingLevel t = some k) : 1 ≤ k ∧ k ≤ 6 := by
  unfold claimHeadingLevel at h
  by_cases hc : 1 ≤ (t.takeWhile (fun c => c == '#')).length ∧
      (t.takeWhile (fun c => c == '#')).length ≤ 6 ∧
      wsAt t (t.takeWhile (fun c => c == '#')).length = true ∧
      (t.drop (t.takeWhile (fun c => c == '#')).length).dropWhile isPySpace ≠ []
  · rw [if_pos hc] at h
    have hk : (t.takeWhile (fun c => c == '#')).length = k := by
      injection h
    omega
  · rw [if_neg hc] at h
    exact absurd h (by simp)

theorem analyze_headings_countP (ls : List (List Char)) :
    (analyze_headings ls).h1 = ls.countP (fun l => claimHeadingLevel (pyStrip l) == some 1)
    ∧ (analyze_headings ls).h2 = ls.countP (fun l => claimHeadingLevel (pyStrip l) == some 2)
    ∧ (analyze_headings ls).h3 = ls.countP (fun l => claimHeadingLevel (pyStrip l) == some 3)
    ∧ (analyze_headings ls).h4 = ls.countP (fun l => claimHeadingLevel (pyStrip l) == some 4)
    ∧ (analyze_headings ls).h5 = ls.countP (fun l => claimHeadingLevel (pyStrip l) == some 5)
    ∧ (analyze_headings ls).h6 = ls.countP (fun l => claimHeadingLevel (pyStrip l) == some 6) := by
  induction ls with
  | nil => exact ⟨rfl, rfl, rfl, rfl, rfl, rfl⟩
  | cons l ls ih =>
    obtain ⟨ih1, ih2, ih3, ih4, ih5, ih6⟩ := ih
    have hrw : analyze_headings (l :: ls)
        = (analyze_headings ls).bump (claimHeadingLevel (pyStrip l)) := by
      show (analyze_headings ls).bump (headingLevelSrc (pyStrip l)) = _
      rw [headingLevelSrc_strip l]
    rcases hcl : claimHeadingLevel (pyStrip l) with _ | k
    · rw [hrw, hcl]
      simp [Headings.bump, List.countP_cons, hcl, ih1, ih2, ih3, ih4, ih5, ih6]
    · obtain ⟨hb1, hb2⟩ := claimHeadingLevel_some_bounds hcl
      rw [hrw, hcl]
      interval_cases k <;>
        simp [Headings.bump, List.countP_cons, hcl, ih1, ih2, ih3, ih4, ih5, ih6]

/-- C6 (confirmed): heading analysis counts, per bucket, exactly the lines whose trimmed
content is 1 to 6 `'#'` characters followed by at least one whitespace character and
non-empty content; a line of 7 or more hashes contributes to no bucket, `"# Title"`
contributes 1 to h1. -/
theorem c6_heading_buckets :
    (∀ ls : List (List Char),
      (analyze_headings ls).h1 = ls.countP (fun l => claimHeadingLevel (pyStrip l) == some 1)
      ∧ (analyze_headings ls).h2 = ls.countP (fun l => claimHeadingLevel (pyStrip l) == some 2)
      ∧ (analyze_headings ls).h3 = ls.countP (fun l => claimHeadingLevel (pyStrip l) == some 3)
      ∧ (analyze_headings ls).h4 = ls.countP (fun l => claimHeadingLevel (pyStrip l) == some 4)
      ∧ (analyze_headings ls).h5 = ls.countP (fun l => claimHeadingLevel (pyStrip l) == some 5)
      ∧ (analyze_headings ls).h6 = ls.countP (fun l => claimHeadingLevel (pyStrip l) == some 6))
    ∧ analyze_headings [exC6a] = Headings.zero
    ∧ analyze_headings [exC6b] = { Headings.zero with h1 := 1 } :=
  ⟨analyze_headings_countP, by decide, by decide⟩

theorem takeWhile_append_sentinel (p : Char → Bool) (a : List Char) (b : Char)
    (r : List Char) (ha : ∀ c ∈ a, p c = true) (hb : p b = false) :
    (a ++ b :: r).takeWhile p = a := by
  induction a with
  | nil => simp [List.takeWhile_cons, hb]
  | cons c cs ih =>
    have hc : p c = true := ha c (List.mem_cons_self _ _)
    simp only [List.cons_append, List.takeWhile_cons, hc, if_pos]
    rw [ih (fun d hd => ha d (List.mem_cons_of_mem _ hd))]

theorem stripFences_no_bq (t : List Char) (h : findSubIdx bq3 t = none) :
    stripFences t = t := by
  unfold stripFences
  rcases hn : t.length with _ | n
  · rfl
  · simp [stripFencesF, h]

theorem stripFences_unterminated (r : List Char) (h : findSubIdx bq3 r = none) :
    stripFences (bq3 ++ r) = bq3 ++ r := by
  have hsw : startsWithL (btick :: btick :: btick :: r) bq3 = true :=
    startsWithL_append_self bq3 r
  have h0 : findSubIdx bq3 (btick :: btick :: btick :: r) = some 0 := by
    simp [findSubIdx, hsw]
  have hdrop : (btick :: btick :: btick :: r).drop 3 = r := rfl
  have hlen : (bq3 ++ r).length = r.length + 2 + 1 := by
    simp [bq3]
  show stripFences (btick :: btick :: btick :: r) = btick :: btick :: btick :: r
  unfold stripFences
  have hlen' : (btick :: btick :: btick :: r).length = r.length + 2 + 1 := hlen
  rw [hlen']
  simp only [stripFencesF, h0]
  simp [hdrop, h]

theorem stripInline_span (a : List Char) (hne : a ≠ [])
    (hnb : ∀ c ∈ a, (c == btick) = false) :
    stripInline (btick :: a ++ [btick]) = [] := by
  have hta : (a ++ [btick]).takeWhile (fun d => !(d == btick)) = a := by
    have := takeWhile_append_sentinel (fun d => !(d == btick)) a btick []
      (fun c hc => by simp [hnb c hc]) (by simp)
    simpa using this
  have hdrop1 : (a ++ [btick]).drop a.length = [btick] := List.drop_left a [btick]
  have hdrop2 : (a ++ [btick]).drop (a.length + 1) = [] := by
    apply List.drop_eq_nil_of_le
    simp
  have hpos : 0 < a.length := List.length_pos.mpr hne
  have hlen : (btick :: a ++ [btick]).length = a.length + 1 + 1 := by
    simp
  unfold stripInline
  rw [hlen]
  show stripInlineF (a.length + 1 + 1) (btick :: (a ++ [btick])) = []
  simp only [stripInlineF, hta, hdrop1, hdrop2, hpos, if_pos]
  simp [startsWithL, stripInlineF]

/-- C3 (counterexample): the claim says triple-tilde fences are stripped before word
counting and that inline code spans do not cross newlines, but the source only strips
triple-backtick fences (`re.sub(r'```.*?```')`): on `"~~~\nfoo\n~~~"` the code counts 1
word while the claim's description counts 0. -/
theorem c3_tilde_fence_counterexample :
    count_words exC3 ≠ count_words_claimed exC3 := by decide

/-- C3 (amended): the word counter strips content between paired triple-backtick
delimiters only (tilde fences are untouched: any text with no `"```"` is left unchanged
by fence stripping), then inline code spans whose content is any nonempty run of
non-backtick characters (newlines included), then counts maximal word-character runs; a
fence left unterminated at the end of the document is not removed. -/
theorem c3_count_words_amended :
    (∀ t : List Char, count_words t = countWordRuns (stripInline (stripFences t)))
    ∧ (∀ t : List Char, findSubIdx bq3 t = none → stripFences t = t)
    ∧ (∀ r : List Char, findSubIdx bq3 r = none → stripFences (bq3 ++ r) = bq3 ++ r)
    ∧ (∀ a : List Char, a ≠ [] → (∀ c ∈ a, (c == btick) = false) →
        stripInline (btick :: a ++ [btick]) = []) :=
  ⟨fun _ => rfl, stripFences_no_bq, stripFences_unterminated, stripInline_span⟩

/-- C3 (witness): the amended statement applied to concrete inputs — a tilde-fenced
document is unchanged by fence stripping, an unterminated backtick fence is kept, and a
newline-spanning inline code span is removed. -/
theorem c3_count_words_amended_witness :
    stripFences exC3 = exC3
    ∧ stripFences (bq3 ++ exC3r) = bq3 ++ exC3r
    ∧ stripInline (btick :: exC3a ++ [btick]) = [] := by
  have h := c3_count_words_amended
  exact ⟨h.2.1 exC3 (by decide), h.2.2.1 exC3r (by decide),
    h.2.2.2 exC3a (by decide) (by decide)⟩

/-- C1 (code bug): the spec requires `format_markdown` to be idempotent, but the heading
regex `^(#{1,6})(\S)` backtracks, so the already-formatted line `"## x"` matches again
with a hash group of length 1: `format_markdown "##x" = "## x"` while
`format_markdown "## x" = "# # x"`, hence applying the transform twice differs from
applying it once. -/
theorem c1_format_markdown_not_idempotent :
    format_markdown (format_markdown exC1) ≠ format_markdown exC1 := by decide

/-- C2 (counterexample): the claim says every count is 0 on empty input, including the
line count; but `''.split('\n') == ['']`, so the analyzer reports a line count of 1. -/
theorem c2_empty_line_count_counterexample :
    ¬ ((analyze ([] : List Char)).line_count = 0) := by decide

/-- C2 (amended): on empty input every count is 0 except the line count, which is 1;
reading time is 1, readability 100, structure quality `"No structure"`, and the issues
list is exactly `["No issues detected"]`. -/
theorem c2_empty_analysis_amended :
    analyze ([] : List Char) =
      { word_count := 0
        char_count := 0
        line_count := 1
        reading_time := 1
        headings := Headings.zero
        links := 0
        images := 0
        code_blocks := 0
        lists := 0
        blockquotes := 0
        tables := 0
        readability_score := 100
        structure_quality := labelNoStructure
        broken_links := [noIssuesMsg] } := by decide

/-!
Machinery for claim C8: the link findall scan, as a list of matches, and the injection
from image matches into link matches.
-/

/-- The link findall scan returning its matches: each entry is the pair
(suffix at the match start, suffix after the match).  Same recursion as
`countLinksF`. -/
def linkTails : Nat → List Char → List (List Char × List Char)
  | 0, _ => []
  | _ + 1, [] => []
  | fuel + 1, c :: cs =>
    match linkAt (c :: cs) with
    | some rest => (c :: cs, rest) :: linkTails fuel rest
    | none => linkTails fuel cs

theorem countLinksF_eq_linkTails :
    ∀ (fuel : Nat) (s : List Char), countLinksF fuel s = (linkTails fuel s).length := by
  intro fuel
  induction fuel with
  | zero => intro s; rfl
  | succ f ih =>
    intro s
    match s with
    | [] => rfl
    | c :: cs =>
      rcases hm : linkAt (c :: cs) with _ | rest
      · simp [countLinksF, linkTails, hm, ih]
      · simp [countLinksF, linkTails, hm, ih]
        omega

theorem suffix_of_suffix_length_le {s r t : List Char} (hs : s <:+ t) (hr : r <:+ t)
    (h : s.length ≤ r.length) : s <:+ r := by
  obtain ⟨x, hx⟩ := hs
  obtain ⟨y, hy⟩ := hr
  rcases List.append_eq_append_iff.mp (hx.trans hy.symm) with ⟨k, _, hk2⟩ | ⟨k, _, hk2⟩
  · have hlk := congrArg List.length hk2
    simp only [List.length_append] at hlk
    have hk0 : k = [] := List.length_eq_zero.mp (by omega)
    rw [hk0, List.nil_append] at hk2
    rw [hk2]
  · exact ⟨k, hk2.symm⟩

/-- The canonical text of a link match: `[T](U)` followed by the remainder. -/
def linkShape (T U rest : List Char) : List Char :=
  '[' :: (T ++ ']' :: '(' :: (U ++ ')' :: rest))

/-- The canonical text of an image match: `![A](U)` followed by the remainder. -/
def imageShape (A U rest : List Char) : List Char := '!' :: linkShape A U rest

theorem linkAt_some_shape {s rest : List Char} (h : linkAt s = some rest) :
    ∃ T U, s = linkShape T U rest
      ∧ T ≠ [] ∧ (∀ c ∈ T, (c == ']') = false)
      ∧ U ≠ [] ∧ (∀ c ∈ U, (c == ')') = false) := by
  unfold linkAt at h
  split at h
  case _ r =>
    split at h
    case isTrue => exact absurd h (by simp)
    case isFalse hT0 =>
      split at h
      case _ r2 heq =>
        split at h
        case isTrue => exact absurd h (by simp)
        case isFalse hU0 =>
          split at h
          case _ r3 heq2 =>
            refine ⟨r.takeWhile (fun d => !(d == ']')), r2.takeWhile (fun d => !(d == ')')),
              ?_, ?_, ?_, ?_, ?_⟩
            · have hr : r = r.takeWhile (fun d => !(d == ']')) ++ ']' :: '(' :: r2 := by
                conv_lhs => rw [← List.takeWhile_append_dropWhile
                  (p := fun d => !(d == ']')) (l := r)]
                rw [← drop_len_takeWhile (fun d => !(d == ']')) r, heq]
              have hr2 : r2 = r2.takeWhile (fun d => !(d == ')')) ++ ')' :: rest := by
                conv_lhs => rw [← List.takeWhile_append_dropWhile
                  (p := fun d => !(d == ')')) (l := r2)]
                rw [← drop_len_takeWhile (fun d => !(d == ')')) r2, heq2]
                have hinj : r3 = rest := by
                  injection h
                rw [hinj]
              conv_lhs => rw [hr]
              conv_lhs => rw [hr2]
              simp [linkShape]
            · intro hnil
              rw [hnil] at hT0
              simp at hT0
            · intro c hc
              have := all_takeWhile (fun d => !(d == ']')) r
              rw [List.all_eq_true] at this
              simpa using this c hc
            · intro hnil
              rw [hnil] at hU0
              simp at hU0
            · intro c hc
              have := all_takeWhile (fun d => !(d == ')')) r2
              rw [List.all_eq_true] at this
              simpa using this c hc
          all_goals exact absurd h (by simp)
      all_goals exact absurd h (by simp)
  all_goals exact absurd h (by simp)

theorem imageAt_some_shape {s : List Char} {alt rest : List Char}
    (h : imageAt s = some (alt, rest)) :
    ∃ U, s = imageShape alt U rest
      ∧ (∀ c ∈ alt, (c == ']') = false)
      ∧ U ≠ [] ∧ (∀ c ∈ U, (c == ')') = false) := by
  unfold imageAt at h
  split at h
  case _ r =>
    split at h
    case _ r2 heq =>
      split at h
      case isTrue => exact absurd h (by simp)
      case isFalse hU0 =>
        split at h
        case _ r3 heq2 =>
          have halt : r.takeWhile (fun d => !(d == ']')) = alt := by
            injection h with h'
            exact congrArg Prod.fst h'
          have hrest : r3 = rest := by
            injection h with h'
            exact congrArg Prod.snd h'
          refine ⟨r2.takeWhile (fun d => !(d == ')')), ?_, ?_, ?_, ?_⟩
          · have hr : r = alt ++ ']' :: '(' :: r2 := by
              conv_lhs => rw [← List.takeWhile_append_dropWhile
                (p := fun d => !(d == ']')) (l := r)]
              rw [← drop_len_takeWhile (fun d => !(d == ']')) r, heq, halt]
            have hr2 : r2 = r2.takeWhile (fun d => !(d == ')')) ++ ')' :: rest := by
              conv_lhs => rw [← List.takeWhile_append_dropWhile
                (p := fun d => !(d == ')')) (l := r2)]
              rw [← drop_len_takeWhile (fun d => !(d == ')')) r2, heq2, hrest]
            conv_lhs => rw [hr]
            conv_lhs => rw [hr2]
            simp [imageShape, linkShape]
          · intro c hc
            rw [← halt] at hc
            have := all_takeWhile (fun d => !(d == ']')) r
            rw [List.all_eq_true] at this
            simpa using this c hc
          · intro hnil
            rw [hnil] at hU0
            simp at hU0
          · intro c hc
            have := all_takeWhile (fun d => !(d == ')')) r2
            rw [List.all_eq_true] at this
            simpa using this c hc
        all_goals exact absurd h (by simp)
    all_goals exact absurd h (by simp)
  all_goals exact absurd h (by simp)

theorem linkAt_of_shape (T U rest : List Char) (hT : T ≠ [])
    (hTn : ∀ c ∈ T, (c == ']') = false) (hU : U ≠ [])
    (hUn : ∀ c ∈ U, (c == ')') = false) :
    linkAt (linkShape T U rest) = some rest := by
  have htw : (T ++ ']' :: '(' :: (U ++ ')' :: rest)).takeWhile (fun d => !(d == ']')) = T :=
    takeWhile_append_sentinel (fun d => !(d == ']')) T ']' ('(' :: (U ++ ')' :: rest))
      (fun c hc => by simp [hTn c hc]) (by decide)
  have hdr : (T ++ ']' :: '(' :: (U ++ ')' :: rest)).drop T.length
      = ']' :: '(' :: (U ++ ')' :: rest) := List.drop_left T (']' :: '(' :: (U ++ ')' :: rest))
  have htw2 : (U ++ ')' :: rest).takeWhile (fun d => !(d == ')')) = U :=
    takeWhile_append_sentinel (fun d => !(d == ')')) U ')' rest
      (fun c hc => by simp [hUn c hc]) (by decide)
  have hdr2 : (U ++ ')' :: rest).drop U.length = ')' :: rest := List.drop_left U (')' :: rest)
  have hTlen : T.length ≠ 0 := by
    intro h0
    exact hT (List.length_eq_zero.mp h0)
  have hUlen : U.length ≠ 0 := by
    intro h0
    exact hU (List.length_eq_zero.mp h0)
  unfold linkShape linkAt
  split
  next r hr =>
    have hr' : r = T ++ ']' :: '(' :: (U ++ ')' :: rest) := by
      injection hr with _ h
      exact h.symm
    subst hr'
    rw [htw, hdr, if_neg hTlen]
    split
    next r2 hr2 =>
      have h1 := hr2
      injection h1 with _ h1
      injection h1 with _ h1
      have hr2' : r2 = U ++ ')' :: rest := h1.symm
      subst hr2'
      rw [htw2, hdr2, if_neg hUlen]
      split
      next r3 hr3 =>
        injection hr3 with _ h3
        rw [h3]
      next h4 => exact (h4 _ rfl).elim
    next h3 => exact (h3 _ rfl).elim
  next h1 h2 => exact (h2 _ rfl).elim

theorem linkShape_length (T U rest : List Char) :
    (linkShape T U rest).length = T.length + U.length + rest.length + 4 := by
  simp [linkShape]
  omega

theorem linkAt_shrink {s rest : List Char} (h : linkAt s = some rest) :
    rest.length < s.length := by
  obtain ⟨T, U, hs, _, _, _, _⟩ := linkAt_some_shape h
  rw [hs, linkShape_length]
  omega

theorem linkAt_suffix {s rest : List Char} (h : linkAt s = some rest) : rest <:+ s := by
  obtain ⟨T, U, hs, _, _, _, _⟩ := linkAt_some_shape h
  rw [hs]
  exact ⟨'[' :: (T ++ ']' :: '(' :: (U ++ [')'])), by simp [linkShape]⟩

theorem linkTails_mem :
    ∀ (fuel : Nat) (u : List Char) (pr : List Char × List Char),
      pr ∈ linkTails fuel u →
      linkAt pr.1 = some pr.2 ∧ pr.1 <:+ u := by
  intro fuel
  induction fuel with
  | zero =>
    intro u pr h
    simp [linkTails] at h
  | succ f ih =>
    intro u pr h
    match u with
    | [] => simp [linkTails] at h
    | c :: cs =>
      rcases hm : linkAt (c :: cs) with _ | rest
      · rw [linkTails, hm] at h
        have := ih cs pr h
        exact ⟨this.1, this.2.trans (List.suffix_cons c cs)⟩
      · rw [linkTails, hm] at h
        rcases List.mem_cons.mp h with rfl | hmem
        · exact ⟨hm, List.suffix_refl _⟩
        · have := ih rest pr hmem
          exact ⟨this.1, this.2.trans (linkAt_suffix hm)⟩

theorem linkTails_complete :
    ∀ (fuel : Nat) (u s : List Char), u.length ≤ fuel → s <:+ u → linkAt s ≠ none →
      ∃ pr ∈ linkTails fuel u, pr.2.length < s.length ∧ s.length ≤ pr.1.length := by
  intro fuel
  induction fuel with
  | zero =>
    intro u s hf hs hn
    have hu : u = [] := List.length_eq_zero.mp (by omega)
    subst hu
    obtain ⟨x, hx⟩ := hs
    have hs0 : s = [] := (List.append_eq_nil.mp hx).2
    subst hs0
    exact absurd rfl hn
  | succ f ih =>
    intro u s hf hs hn
    match u with
    | [] =>
      obtain ⟨x, hx⟩ := hs
      have hs0 : s = [] := (List.append_eq_nil.mp hx).2
      subst hs0
      exact absurd rfl hn
    | c :: cs =>
      rcases hm : linkAt (c :: cs) with _ | rest
      · by_cases hsu : s = c :: cs
        · rw [hsu] at hn
          exact absurd hm hn
        · have hs' : s <:+ cs := by
            rcases List.suffix_cons_iff.mp hs with h | h
            · exact absurd h hsu
            · exact h
          have hlen : cs.length ≤ f := by
            simp only [List.length_cons] at hf
            omega
          obtain ⟨pr, hmem, h1, h2⟩ := ih cs s hlen hs' hn
          refine ⟨pr, ?_, h1, h2⟩
          rw [linkTails, hm]
          exact hmem
      · by_cases hcover : rest.length < s.length
        · refine ⟨(c :: cs, rest), ?_, hcover, hs.length_le⟩
          rw [linkTails, hm]
          exact List.mem_cons_self _ _
        · have hrs : s <:+ rest :=
            suffix_of_suffix_length_le hs (linkAt_suffix hm) (by omega)
          have hlen : rest.length ≤ f := by
            have := linkAt_shrink hm
            simp only [List.length_cons] at hf this
            omega
          obtain ⟨pr, hmem, h1, h2⟩ := ih rest s hlen hrs hn
          refine ⟨pr, ?_, h1, h2⟩
          rw [linkTails, hm]
          exact List.mem_cons_of_mem _ hmem

theorem countP_plus_one {α : Type} (p q : α → Bool) :
    ∀ (l : List α) (x : α), x ∈ l → p x = true → q x = false →
      (∀ y, q y = true → p y = true) →
      l.countP q + 1 ≤ l.countP p := by
  intro l
  induction l with
  | nil =>
    intro x hx
    simp at hx
  | cons a as ih =>
    intro x hx hp hq hmono
    have hmono' : as.countP q ≤ as.countP p :=
      List.countP_mono_left (fun y _ hy => hmono y hy)
    rcases List.mem_cons.mp hx with rfl | hmem
    · rw [List.countP_cons, List.countP_cons, hp, hq]
      simp
      omega
    · have h2 := ih x hmem hp hq hmono
      rw [List.countP_cons, List.countP_cons]
      by_cases hqa : q a = true
      · rw [hqa, hmono a hqa]
        omega
      · rw [Bool.not_eq_true] at hqa
        rw [hqa]
        by_cases hpa : p a = true
        · rw [hpa]
          simp
          omega
        · rw [Bool.not_eq_true] at hpa
          rw [hpa]
          omega

theorem sep_det (sep : Char) :
    ∀ (a b x y : List Char), a ++ sep :: x = b ++ sep :: y →
      (∀ c ∈ a, (c == sep) = false) → (∀ c ∈ b, (c == sep) = false) →
      a = b ∧ x = y := by
  intro a
  induction a with
  | nil =>
    intro b x y h ha hb
    match b with
    | [] =>
      simp only [List.nil_append] at h
      injection h with _ h2
      exact ⟨rfl, h2⟩
    | d :: ds =>
      simp only [List.nil_append, List.cons_append] at h
      injection h with h1 _
      have hd : (d == sep) = false := hb d (List.mem_cons_self _ _)
      rw [← h1] at hd
      simp at hd
  | cons c cs ih =>
    intro b x y h ha hb
    match b with
    | [] =>
      simp only [List.nil_append, List.cons_append] at h
      injection h with h1 _
      have hc : (c == sep) = false := ha c (List.mem_cons_self _ _)
      rw [h1] at hc
      simp at hc
    | d :: ds =>
      simp only [List.cons_append] at h
      injection h with h1 h2
      have := ih ds x y h2 (fun e he => ha e (List.mem_cons_of_mem _ he))
        (fun e he => hb e (List.mem_cons_of_mem _ he))
      exact ⟨by rw [h1, this.1], this.2⟩

theorem split_first (sep : Char) :
    ∀ l : List Char, (∀ c ∈ l, (c == sep) = false)
      ∨ ∃ a b, l = a ++ sep :: b ∧ ∀ c ∈ a, (c == sep) = false := by
  intro l
  induction l with
  | nil =>
    left
    intro c hc
    simp at hc
  | cons c cs ih =>
    by_cases hc : c = sep
    · right
      refine ⟨[], cs, ?_, ?_⟩
      · rw [hc]
        rfl
      · intro d hd
        simp at hd
    · rcases ih with h | ⟨a, b, hab, ha⟩
      · left
        intro d hd
        rcases List.mem_cons.mp hd with rfl | hdm
        · exact beq_eq_false_iff_ne.mpr hc
        · exact h d hdm
      · right
        refine ⟨c :: a, b, ?_, ?_⟩
        · rw [hab]
          rfl
        · intro d hd
          rcases List.mem_cons.mp hd with rfl | hdm
          · exact beq_eq_false_iff_ne.mpr hc
          · exact ha d hdm

theorem noClose_shape (A U : List Char) (hAn : ∀ c ∈ A, (c == ')') = false)
    (hUn : ∀ c ∈ U, (c == ')') = false) :
    ∀ c ∈ '[' :: (A ++ ']' :: '(' :: U), (c == ')') = false := by
  intro c hc
  rcases List.mem_cons.mp hc with rfl | hc
  · decide
  · rcases List.mem_append.mp hc with hc | hc
    · exact hAn c hc
    · rcases List.mem_cons.mp hc with rfl | hc
      · decide
      · rcases List.mem_cons.mp hc with rfl | hc
        · decide
        · exact hUn c hc

/-- The key covering fact for claim C8: a link match `[T](V)` whose span contains the
opening `'['` of an image `![A](U)` (its text starting at that bracket being
`linkShape A U r`) ends at or before the image's closing parenthesis, i.e. its remainder
`lr` is at least as long as the image's remainder `r`. -/
theorem link_end_in_image (A U r T V lr : List Char)
    (hAn : ∀ c ∈ A, (c == ']') = false)
    (hUn : ∀ c ∈ U, (c == ')') = false)
    (hTn : ∀ c ∈ T, (c == ']') = false)
    (hVn : ∀ c ∈ V, (c == ')') = false)
    (w : List Char)
    (hsub : linkShape T V lr = w ++ linkShape A U r)
    (hlt : lr.length < (linkShape A U r).length) :
    r.length ≤ lr.length := by
  match w with
  | [] =>
    rw [List.nil_append] at hsub
    unfold linkShape at hsub
    injection hsub with _ h1
    have hd := sep_det ']' T A _ _ h1 hTn hAn
    have h2 := hd.2
    injection h2 with _ h2
    have hd2 := sep_det ')' V U _ _ h2 hVn hUn
    rw [hd2.2]
  | x :: w₂ =>
    rw [List.cons_append] at hsub
    unfold linkShape at hsub
    injection hsub with _ h1
    rcases List.append_eq_append_iff.mp h1 with ⟨k, hk1, hk2⟩ | ⟨k, hk1, hk2⟩
    · -- the image bracket lies at or after the link's ']'
      match k, hk2 with
      | [], hk2 =>
        rw [List.nil_append] at hk2
        injection hk2 with hc _
        exact absurd hc (by decide)
      | e :: k₂, hk2 =>
        rw [List.cons_append] at hk2
        injection hk2 with _ hk2
        match k₂, hk2 with
        | [], hk2 =>
          rw [List.nil_append] at hk2
          injection hk2 with hc _
          exact absurd hc (by decide)
        | e₂ :: k₃, hk2 =>
          rw [List.cons_append] at hk2
          injection hk2 with _ hk2
          rcases List.append_eq_append_iff.mp hk2 with ⟨m, hm1, hm2⟩ | ⟨m, hm1, hm2⟩
          · -- the image bracket lies at or after the link's final ')': impossible
            match m, hm2 with
            | [], hm2 =>
              rw [List.nil_append] at hm2
              injection hm2 with hc _
              exact absurd hc (by decide)
            | e₃ :: m₂, hm2 =>
              rw [List.cons_append] at hm2
              injection hm2 with _ hm2
              have hlen := congrArg List.length hm2
              have hLS : ('[' :: (A ++ ']' :: '(' :: (U ++ ')' :: r))).length
                  = (linkShape A U r).length := rfl
              simp only [List.length_append] at hlen
              rw [hLS] at hlen
              omega
          · -- the link's U-part reaches into the image: the link ends at the first ')'
            -- inside the image, which lies in the alt text or is the image's closer
            have hmV : ∀ c ∈ m, (c == ')') = false := by
              intro c hc
              exact hVn c (by rw [hm1]; exact List.mem_append_right _ hc)
            rcases split_first ')' A with hA | ⟨A₁, A₂, hA, hA₁⟩
            · -- no ')' inside the alt: the link ends exactly at the image's ')'
              have hshape : '[' :: (A ++ ']' :: '(' :: (U ++ ')' :: r))
                  = ('[' :: (A ++ ']' :: '(' :: U)) ++ ')' :: r := by
                simp
              rw [hshape] at hm2
              have hd := sep_det ')' m ('[' :: (A ++ ']' :: '(' :: U)) _ _ hm2.symm hmV
                (noClose_shape A U hA hUn)
              rw [hd.2]
            · -- the first ')' inside the alt ends the link there; everything after it,
              -- including the whole image tail, is the link's remainder
              have hshape : '[' :: (A ++ ']' :: '(' :: (U ++ ')' :: r))
                  = ('[' :: A₁) ++ ')' :: (A₂ ++ ']' :: '(' :: (U ++ ')' :: r)) := by
                rw [hA]
                simp
              rw [hshape] at hm2
              have hX : ∀ c ∈ '[' :: A₁, (c == ')') = false := by
                intro c hc
                rcases List.mem_cons.mp hc with rfl | hc
                · decide
                · exact hA₁ c hc
              have hd := sep_det ')' m ('[' :: A₁) _ _ hm2.symm hmV hX
              have hlen := congrArg List.length hd.2
              simp only [List.length_append, List.length_cons] at hlen
              omega
    · -- the image bracket lies inside the link's text part: both brackets close at the
      -- same ']' and the two matches coincide from there on
      have hkn : ∀ c ∈ k, (c == ']') = false := by
        intro c hc
        exact hTn c (by rw [hk1]; exact List.mem_append_right _ hc)
      have hshape : '[' :: (A ++ ']' :: '(' :: (U ++ ')' :: r))
          = ('[' :: A) ++ ']' :: ('(' :: (U ++ ')' :: r)) := by
        simp
      rw [hshape] at hk2
      have hX : ∀ c ∈ '[' :: A, (c == ']') = false := by
        intro c hc
        rcases List.mem_cons.mp hc with rfl | hc
        · decide
        · exact hAn c hc
      have hd := sep_det ']' ('[' :: A) k _ _ hk2 hX hkn
      have h2 := hd.2
      injection h2 with _ h2
      have hd2 := sep_det ')' U V _ _ h2 hUn hVn
      rw [hd2.2]

theorem imagesF_le (t : List Char) :
    ∀ (fuel : Nat) (s : List Char), s <:+ t → s.length ≤ fuel →
      (∀ a ∈ imageAltsF fuel s, a ≠ []) →
      countImagesF fuel s ≤
        (linkTails t.length t).countP (fun pr => decide (pr.2.length < s.length)) := by
  intro fuel
  induction fuel with
  | zero =>
    intro s _ _ _
    simp [countImagesF]
  | succ f ih =>
    intro s hsub hlen halts
    match s with
    | [] => simp [countImagesF]
    | c :: cs =>
      rcases hm : imageAt (c :: cs) with _ | ⟨alt, r1⟩
      · simp only [countImagesF, hm]
        have halts' : ∀ a ∈ imageAltsF f cs, a ≠ [] := by
          intro a ha
          apply halts
          rw [imageAltsF, hm]
          exact ha
        have hcs : cs <:+ t := (List.suffix_cons c cs).trans hsub
        have hlen' : cs.length ≤ f := by
          simp only [List.length_cons] at hlen
          omega
        have := ih cs hcs hlen' halts'
        have hmono : (linkTails t.length t).countP (fun pr => decide (pr.2.length < cs.length))
            ≤ (linkTails t.length t).countP
              (fun pr => decide (pr.2.length < (c :: cs).length)) := by
          apply List.countP_mono_left
          intro pr _ hpr
          simp only [decide_eq_true_eq, List.length_cons] at hpr ⊢
          omega
        omega
      · simp only [countImagesF, hm]
        obtain ⟨U, hshape, hAn, hUne, hUn⟩ := imageAt_some_shape hm
        have halt : alt ≠ [] := by
          apply halts
          rw [imageAltsF, hm]
          exact List.mem_cons_self _ _
        have hlink : linkAt (linkShape alt U r1) = some r1 :=
          linkAt_of_shape alt U r1 halt hAn hUne hUn
        have hbs : linkShape alt U r1 <:+ (c :: cs) := by
          rw [hshape]
          exact List.suffix_cons '!' _
        have hbsub : linkShape alt U r1 <:+ t := hbs.trans hsub
        obtain ⟨pr, hpr_mem, hpr_lt, hpr_ge⟩ := linkTails_complete t.length t
          (linkShape alt U r1) (le_refl _) hbsub (by rw [hlink]; simp)
        obtain ⟨hpr_link, hpr_suf⟩ := linkTails_mem t.length t pr hpr_mem
        obtain ⟨T, V, hls, hTne, hTn, hVne, hVn⟩ := linkAt_some_shape hpr_link
        have hbls : linkShape alt U r1 <:+ pr.1 :=
          suffix_of_suffix_length_le hbsub hpr_suf hpr_ge
        obtain ⟨w, hw⟩ := hbls
        have hkey : r1.length ≤ pr.2.length := by
          apply link_end_in_image alt U r1 T V pr.2 hAn hUn hTn hVn w
          · rw [← hls, hw]
          · exact hpr_lt
        have hslen : (c :: cs).length = (linkShape alt U r1).length + 1 := by
          rw [hshape]
          rfl
        have hr1s : r1.length < (linkShape alt U r1).length := by
          rw [linkShape_length]
          omega
        have hp : (fun pr' : List Char × List Char =>
            decide (pr'.2.length < (c :: cs).length)) pr = true := by
          simp only [decide_eq_true_eq]
          omega
        have hq : (fun pr' : List Char × List Char =>
            decide (pr'.2.length < r1.length)) pr = false := by
          simp only [decide_eq_false_iff_not]
          omega
        have hstep := countP_plus_one
          (fun pr' : List Char × List Char => decide (pr'.2.length < (c :: cs).length))
          (fun pr' : List Char × List Char => decide (pr'.2.length < r1.length))
          (linkTails t.length t) pr hpr_mem hp hq
          (by
            intro y hy
            simp only [decide_eq_true_eq] at hy ⊢
            omega)
        have hr1sub : r1 <:+ t := (linkAt_suffix hlink).trans hbsub
        have hr1len : r1.length ≤ f := by
          have hcc : (c :: cs).length = cs.length + 1 := by simp
          simp only [List.length_cons] at hlen
          omega
        have halts' : ∀ a ∈ imageAltsF f r1, a ≠ [] := by
          intro a ha
          apply halts
          rw [imageAltsF, hm]
          exact List.mem_cons_of_mem _ ha
        have hih := ih r1 hr1sub hr1len halts'
        omega

/-- C8 (amended): links and images are counted independently by non-overlapping pattern
scans; for every input whose image matches all have non-empty alt text, each image's
bracket is covered by a link match ending inside that image, so the image count is at
most the link count. -/
theorem c8_images_le_links_amended (t : List Char)
    (h : ∀ a ∈ imageAlts t, a ≠ []) : count_images t ≤ analyze_links t := by
  have hq := imagesF_le t t.length t (List.suffix_refl t) (le_refl _) h
  have hbr : analyze_links t = (linkTails t.length t).length :=
    countLinksF_eq_linkTails t.length t
  have hle : (linkTails t.length t).countP (fun pr => decide (pr.2.length < t.length))
      ≤ (linkTails t.length t).length := List.countP_le_length _
  show countImagesF t.length t ≤ analyze_links t
  omega

/-- C8 (witness): the amended statement applied to a concrete input with two non-empty
alt texts: two images and two links. -/
theorem c8_images_le_links_witness : count_images exC8w ≤ analyze_links exC8w :=
  c8_images_le_links_amended exC8w (by decide)

/-- C8 (counterexample): the claim says every image occurrence also contributes a link
match, so `imageCount ≤ linkCount`; but the image alt group `[^\]]*` may be empty while
the link text group `[^\]]+` may not: on `"![](u)"` there is 1 image and 0 links. -/
theorem c8_empty_alt_counterexample :
    ¬ (count_images exC8 ≤ analyze_links exC8) := by decide

end MDSpec
